import Mathlib

/-!
Verification of the technology-choice agent-based model in
`final_market_share.py` (Brian Arthur–style adoption dynamics on a network).

The Python source is shallowly embedded: the mutable `Simulation` object
becomes an explicit state record (`SimState`), the shared `np.random` stream
becomes an explicit stream of per-step draws (`Draw`), and the weighted
sampling done by `np.random.choice(tech_list, p=...)` becomes inverse-cdf
selection (`pickIndexQ`) applied to a uniform draw in `[0,1)`.  Python `int`
counters are modelled as `ℤ` (they may in principle go negative), shares as
`ℚ`, and the choice-function exponent as a natural number (the script uses
integer exponents; its default is 2).  Note the Python semantics of `0 ** 0`,
which evaluates to `1`: this is reflected by `Nat.pow` and decides several
claims about the exponent-zero configuration.
-/

namespace TechChoice

/-- Constructor parameters of `Simulation.__init__`.  Field names follow the
Python keyword arguments.  `t_max` is an integer because the script never
restricts it to be nonnegative. -/
structure Config where
  n_agents : ℕ
  n_technologies : ℕ
  n_initial_adopters : ℕ
  reconsideration_probability : ℚ
  choice_function_exponent : ℕ
  network_type : String
  t_max : ℤ
deriving Repr, DecidableEq

/-- The random draws consumed by one iteration of `Simulation.run`:
the uniformly selected agent (`np.random.choice(self.agents_list)`), the
uniform variate compared against `reconsideration_probability`
(`np.random.random()`), and the uniform variate in `[0,1)` that drives the
weighted technology selection inside `Agent.choose`
(`np.random.choice(tech_list, p=tech_probability)`). -/
structure Draw where
  agent : ℕ
  recon : ℚ
  pick : ℚ
deriving Repr, DecidableEq

/-- State of a `Simulation` object: per-agent technology (`Agent.technology`,
indexed by agent id), the counter dict `tech_frequency`, the history dict
`history_tech_frequency`, and the list `history_t`. -/
structure SimState where
  techOf : List (Option ℕ)
  techFrequency : ℕ → ℤ
  historyTechFrequency : ℕ → List ℚ
  historyT : List ℤ

/-- Reading `Agent.get_technology()` of agent `a` from the population state. -/
def get_technology (techOf : List (Option ℕ)) (a : ℕ) : Option ℕ :=
  techOf.getD a none

/-- The neighborhood tally built at the top of `Agent.choose`: the number of
direct neighbors currently holding technology `t`. -/
def neighborTechCount (techOf : List (Option ℕ)) (nbrs : List ℕ) (t : ℕ) : ℕ :=
  nbrs.countP (fun a => get_technology techOf a == some t)

/-- Inverse-cdf selection used by `np.random.choice(tech_list, p=ws)`: given
the probability vector `ws` and a uniform variate `u`, return the first index
whose cumulative probability exceeds `u`. -/
def pickIndexQ : List ℚ → ℚ → ℕ
  | [], _ => 0
  | w :: ws, u => if u < w then 0 else pickIndexQ ws (u - w) + 1

/-- The local `tech_probability` list built in `Agent.choose` before
normalization: the weight of technology `t` is `c_t ** alpha` computed with
`Nat.pow`, which agrees with Python exponentiation on naturals (in particular
`0 ** 0 = 1`). -/
def tech_probability_list (K alpha : ℕ) (techOf : List (Option ℕ))
    (nbrs : List ℕ) : List ℕ :=
  (List.range K).map (fun t => (neighborTechCount techOf nbrs t) ^ alpha)

/-- The normalized probability vector `tech_probability / np.sum(...)` passed
to `np.random.choice` in the positive-weight branch of `Agent.choose`. -/
def chooseProbs (K alpha : ℕ) (techOf : List (Option ℕ)) (nbrs : List ℕ) :
    List ℚ :=
  (tech_probability_list K alpha techOf nbrs).map
    (fun (w : ℕ) => (w : ℚ) / ((tech_probability_list K alpha techOf nbrs).sum : ℚ))

/-- The body of `Agent.choose` for the agent `aid` with neighbor list `nbrs`,
consuming the uniform variate `u`.  Returns the reported
`(old_tech, new_tech)` pair together with the updated population state.
When the weights sum to zero the sentinel `(none, none)` is returned and
nothing changes. -/
def choose (K alpha : ℕ) (techOf : List (Option ℕ)) (nbrs : List ℕ)
    (u : ℚ) (aid : ℕ) : (Option ℕ × Option ℕ) × List (Option ℕ) :=
  if 0 < (tech_probability_list K alpha techOf nbrs).sum then
    ((get_technology techOf aid,
        some (pickIndexQ (chooseProbs K alpha techOf nbrs) u)),
      techOf.set aid (some (pickIndexQ (chooseProbs K alpha techOf nbrs) u)))
  else
    ((none, none), techOf)

/-- Counter maintenance done in `Simulation.run` after `A.choose()` reports
`(old, new)`: decrement `tech_frequency[old]` when `old` is not `None` and
increment `tech_frequency[new]` when `new` is not `None`. -/
def updateFreq (f : ℕ → ℤ) (old nw : Option ℕ) : ℕ → ℤ :=
  let f1 : ℕ → ℤ :=
    match old with
    | some o => fun x => if x = o then f x - 1 else f x
    | none => f
  match nw with
  | some w => fun x => if x = w then f1 x + 1 else f1 x
  | none => f1

/-- Recording block at the end of one iteration of `Simulation.run`: append
`tech_frequency[i] / n_agents` to `history_tech_frequency[i]` for every
technology `i`, and append the current time to `history_t`. -/
def recordHistory (cfg : Config) (st : SimState) (t : ℤ) : SimState :=
  { st with
    historyTechFrequency := fun i =>
      if i < cfg.n_technologies then
        st.historyTechFrequency i ++ [(st.techFrequency i : ℚ) / (cfg.n_agents : ℚ)]
      else st.historyTechFrequency i,
    historyT := st.historyT ++ [t] }

/-- One iteration of the loop in `Simulation.run` at time `t`, consuming the
draws `d`.  The selected agent chooses when it has no technology, or when the
reconsideration variate falls below `reconsideration_probability`; afterwards
the current state is recorded. -/
def step (cfg : Config) (nbrs : ℕ → List ℕ) (st : SimState) (t : ℤ) (d : Draw) :
    SimState :=
  let tech := get_technology st.techOf d.agent
  if tech = none ∨ d.recon < cfg.reconsideration_probability then
    let r := choose cfg.n_technologies cfg.choice_function_exponent
      st.techOf (nbrs d.agent) d.pick d.agent
    recordHistory cfg
      { st with techOf := r.2, techFrequency := updateFreq st.techFrequency r.1.1 r.1.2 } t
  else
    recordHistory cfg st t

/-- The time iteration of `Simulation.run`, starting at time `t` and consuming
one `Draw` per iteration. -/
def runSteps (cfg : Config) (nbrs : ℕ → List ℕ) : List Draw → ℤ → SimState → SimState
  | [], _, st => st
  | d :: ds, t, st => runSteps cfg nbrs ds (t + 1) (step cfg nbrs st t d)

/-- Inner seeding loop of `Simulation.__init__`: pop `j` agents from the end of
`early_adopters` and set each of their technologies to `i`
(`A = early_adopters.pop(); A.set_technology(self.technologies_list[i])`). -/
def seedPop (i : ℕ) : ℕ → List ℕ × List (Option ℕ) → List ℕ × List (Option ℕ)
  | 0, s => s
  | j + 1, s =>
      seedPop i j (s.1.dropLast, s.2.set ((s.1.getLast?).getD 0) (some i))

/-- Full seeding loop of `Simulation.__init__`: for each technology
`i < n_technologies`, pop `n_initial_adopters` agents from the end of the
randomly drawn `early_adopters` list and assign them technology `i`. -/
def applySeeding (K nInit : ℕ) (early : List ℕ) (techOf : List (Option ℕ)) :
    List ℕ × List (Option ℕ) :=
  (List.range K).foldl (fun s i => seedPop i nInit s) (early, techOf)

/-- The state built by `Simulation.__init__` once the network exists: all
agents start with technology `None`, the distinct agents listed in `early`
(the without-replacement draw `np.random.choice(self.agents_list,
replace=False, size=n_early_adopters)`) are seeded, `tech_frequency[i]`
becomes `n_initial_adopters` for each technology, and the `t = 0` history
snapshot is recorded with `history_t = [0]`. -/
def initState (cfg : Config) (early : List ℕ) : SimState :=
  let techOf0 : List (Option ℕ) := List.replicate cfg.n_agents none
  let seeded := applySeeding cfg.n_technologies cfg.n_initial_adopters early techOf0
  let freq : ℕ → ℤ := fun t =>
    if t < cfg.n_technologies then (cfg.n_initial_adopters : ℤ) else 0
  { techOf := seeded.2,
    techFrequency := freq,
    historyTechFrequency := fun t =>
      if t < cfg.n_technologies then [((freq t : ℤ) : ℚ) / (cfg.n_agents : ℚ)]
      else [],
    historyT := [0] }

/-- Well-formedness of the without-replacement seeding draw: `np.random.choice`
with `replace=False` returns `n_technologies * n_initial_adopters` distinct
valid agent ids. -/
def ValidEarly (cfg : Config) (early : List ℕ) : Prop :=
  early.Nodup ∧ early.length = cfg.n_technologies * cfg.n_initial_adopters ∧
    ∀ a ∈ early, a < cfg.n_agents

/-- Well-formedness of one step's random draws: `np.random.choice` over the
agent list returns a valid id, and both uniform variates lie in `[0,1)`. -/
def ValidDraw (cfg : Config) (d : Draw) : Prop :=
  d.agent < cfg.n_agents ∧ 0 ≤ d.recon ∧ d.recon < 1 ∧ 0 ≤ d.pick ∧ d.pick < 1

/-- Outcome of the checks that actually execute in `Simulation.__init__`. -/
inductive InitOutcome where
  | ok
  | assertionError (msg : String)
  | networkXError (msg : String)
  | valueError (msg : String)
  | zeroDivisionError (msg : String)
deriving Repr, DecidableEq

/-- The checks of `Simulation.__init__` executed after the network exists:
`np.random.choice(self.agents_list, replace=False, size=n_early_adopters)`
raises `ValueError` when asked for more distinct agents than exist (this also
covers the empty-population case with a positive draw size), and the `t = 0`
history snapshot `self.tech_frequency[tech] / self.n_agents` raises
`ZeroDivisionError` when `n_agents = 0` and at least one technology exists. -/
def seedChecks (cfg : Config) : InitOutcome :=
  if cfg.n_agents < cfg.n_technologies * cfg.n_initial_adopters then
    .valueError "Cannot take a larger sample than population when replace=False"
  else if cfg.n_agents = 0 ∧ 0 < cfg.n_technologies then
    .zeroDivisionError "division by zero"
  else .ok

/-- The deterministic failure paths of `Simulation.__init__`, in program
order.  The network-type dispatch ends in `assert False, "Unknown network
type ..."` for an unrecognized name; `nx.barabasi_albert_graph(n, m=40)`
raises `NetworkXError` unless `m < n` (so whenever `n_agents <= 40`), and
`nx.connected_watts_strogatz_graph(n, k=40, p=0.15)` raises `NetworkXError`
unless `k < n` (again whenever `n_agents <= 40`), while `nx.erdos_renyi_graph`
accepts any node count; afterwards the seeding draw and the `t = 0` snapshot
can raise (`seedChecks`).  The connectivity retry loop inside
`connected_watts_strogatz_graph` can also abort, but only as a function of
the random draws, never of the parameters alone, so it is not a parameter
check and is not modelled.  No other constructor parameter is checked:
`reconsideration_probability`, `choice_function_exponent` and `t_max` are
stored as given. -/
def initChecks (cfg : Config) : InitOutcome :=
  if cfg.network_type = "Erdos-Renyi" then
    seedChecks cfg
  else if cfg.network_type = "Barabasi-Albert" then
    if cfg.n_agents ≤ 40 then
      .networkXError "Barabasi-Albert network must have m greater or equal 1 and m less than n"
    else seedChecks cfg
  else if cfg.network_type = "Watts-Strogatz" then
    if cfg.n_agents ≤ 40 then
      .networkXError "k greater or equal n, choose smaller k or larger n"
    else seedChecks cfg
  else .assertionError "Unknown network type"

/-- The helper `largest_and_second_largest_MS`: sort a copy of the shares
ascending (`np.sort` allocates a new sorted array) and return the last and
second-to-last entries.  Python indexing `[-1]`/`[-2]` raises `IndexError` on
inputs with fewer than two elements, modelled by `none`. -/
def largest_and_second_largest_MS (market_share : List ℚ) : Option (ℚ × ℚ) :=
  let sorted := market_share.insertionSort (· ≤ ·)
  if 2 ≤ sorted.length then
    some (sorted.getD (sorted.length - 1) 0, sorted.getD (sorted.length - 2) 0)
  else none

/-- Branch structure of one iteration of `Simulation.run`, as a relation: the
selected agent either runs `Agent.choose` (because it has no technology, or
because the reconsideration variate falls below the threshold) and the
counters are adjusted from the reported `(old, new)` pair, or the step is a
pure recording step.  `step` computes exactly this relation. -/
inductive StepRel (cfg : Config) (nbrs : ℕ → List ℕ) :
    SimState → ℤ → Draw → SimState → Prop where
  | act (st : SimState) (t : ℤ) (d : Draw) (old nw : Option ℕ)
      (techOf' : List (Option ℕ))
      (h : get_technology st.techOf d.agent = none ∨
        d.recon < cfg.reconsideration_probability)
      (hc : choose cfg.n_technologies cfg.choice_function_exponent
        st.techOf (nbrs d.agent) d.pick d.agent = ((old, nw), techOf')) :
      StepRel cfg nbrs st t d (recordHistory cfg
        { st with techOf := techOf',
                  techFrequency := updateFreq st.techFrequency old nw } t)
  | skip (st : SimState) (t : ℤ) (d : Draw)
      (h : ¬(get_technology st.techOf d.agent = none ∨
        d.recon < cfg.reconsideration_probability)) :
      StepRel cfg nbrs st t d (recordHistory cfg st t)

/-- The whole loop of `Simulation.run` as a relation: starting from state
`st` at time `t`, consuming the listed draws step by step. -/
inductive RunRel (cfg : Config) (nbrs : ℕ → List ℕ) :
    SimState → ℤ → List Draw → SimState → Prop where
  | nil (st : SimState) (t : ℤ) : RunRel cfg nbrs st t [] st
  | cons (st : SimState) (t : ℤ) (d : Draw) (st' : SimState) (ds : List Draw)
      (stf : SimState) (h1 : StepRel cfg nbrs st t d st')
      (h2 : RunRel cfg nbrs st' (t + 1) ds stf) :
      RunRel cfg nbrs st t (d :: ds) stf

/-- Run-time invariant tying the counter dict to the population state: the
population has `n_agents` entries, every counter equals the number of agents
currently holding that technology, every held technology is a valid index,
and every share ever recorded lies in `[0,1]`. -/
def Invariant (cfg : Config) (st : SimState) : Prop :=
  st.techOf.length = cfg.n_agents ∧
  (∀ t, st.techFrequency t = (st.techOf.count (some t) : ℤ)) ∧
  (∀ o ∈ st.techOf, ∀ x, o = some x → x < cfg.n_technologies) ∧
  (∀ t, ∀ q ∈ st.historyTechFrequency t, 0 ≤ q ∧ q ≤ 1)

/-- The block of time indices `[t, t+1, ..., t+k-1]` appended to `history_t`
by `k` consecutive iterations of `Simulation.run`. -/
def timesList : ℤ → ℕ → List ℤ
  | _, 0 => []
  | t, k + 1 => t :: timesList (t + 1) k

/-- The call `lms, slms = largest_and_second_largest_MS(market_shares)` as
seen by the caller: the pair of the list object the caller passed in (after
the call returns) and the returned value.  The line
`market_share = np.sort(market_share)` rebinds the callee's local name to the
freshly allocated sorted copy returned by `np.sort`; the caller's list object
is never written, so the caller-visible list is the argument itself. -/
def largest_and_second_largest_MS_call (market_share : List ℚ) :
    List ℚ × Option (ℚ × ℚ) :=
  (market_share, largest_and_second_largest_MS market_share)

/-! ### Basic facts about the weighted selection -/

theorem pickIndexQ_lt_length (ws : List ℚ) (u : ℚ) (h0 : 0 ≤ u)
    (h1 : u < ws.sum) : pickIndexQ ws u < ws.length := by
  induction ws generalizing u with
  | nil => simp only [List.sum_nil] at h1; exact absurd (lt_of_le_of_lt h0 h1) (lt_irrefl 0)
  | cons w ws ih =>
    by_cases hw : u < w
    · simp [pickIndexQ, hw]
    · have h0' : 0 ≤ u - w := by linarith [not_lt.mp hw]
      have h1' : u - w < ws.sum := by
        simp only [List.sum_cons] at h1; linarith
      simpa [pickIndexQ, hw] using Nat.succ_lt_succ (ih (u - w) h0' h1')

theorem pickIndexQ_pos_weight (ws : List ℚ) (u : ℚ) (h0 : 0 ≤ u)
    (h1 : u < ws.sum) : 0 < ws.getD (pickIndexQ ws u) 0 := by
  induction ws generalizing u with
  | nil => simp only [List.sum_nil] at h1; exact absurd (lt_of_le_of_lt h0 h1) (lt_irrefl 0)
  | cons w ws ih =>
    by_cases hw : u < w
    · simpa [pickIndexQ, hw] using lt_of_le_of_lt h0 hw
    · have h0' : 0 ≤ u - w := by linarith [not_lt.mp hw]
      have h1' : u - w < ws.sum := by
        simp only [List.sum_cons] at h1; linarith
      simpa [pickIndexQ, hw] using ih (u - w) h0' h1'

theorem pickIndexQ_replicate (m : ℕ) (w : ℚ) (hw : 0 < w) :
    ∀ (t : ℕ) (u : ℚ), t < m → (t : ℚ) * w ≤ u → u < ((t : ℚ) + 1) * w →
      pickIndexQ (List.replicate m w) u = t := by
  induction m with
  | zero => intro t u ht; exact absurd ht (Nat.not_lt_zero t)
  | succ m ih =>
    intro t u ht hl hr
    match t with
    | 0 =>
      have : u < w := by push_cast at hr; linarith
      simp [List.replicate_succ, pickIndexQ, this]
    | s + 1 =>
      have hs0 : (0 : ℚ) ≤ (s : ℚ) * w := by positivity
      have hsw : w ≤ u := by
        push_cast at hl
        nlinarith
      have harg1 : (s : ℚ) * w ≤ u - w := by push_cast at hl; linarith
      have harg2 : u - w < ((s : ℚ) + 1) * w := by push_cast at hr; linarith
      have hrec := ih s (u - w) (Nat.lt_of_succ_lt_succ ht) harg1 harg2
      rw [List.replicate_succ]
      simp only [pickIndexQ, if_neg (not_lt.mpr hsw), hrec]

/-! ### The choice weights under the exponent-zero configuration -/

theorem choose_weights_alpha_zero (K : ℕ) (techOf : List (Option ℕ))
    (nbrs : List ℕ) :
    tech_probability_list K 0 techOf nbrs = List.replicate K 1 := by
  simp [tech_probability_list, pow_zero, List.map_const', List.length_range]

theorem choose_alpha_zero_selects (K : ℕ) (hK : 0 < K)
    (techOf : List (Option ℕ)) (nbrs : List ℕ) (aid : ℕ) (u : ℚ) (t : ℕ)
    (ht : t < K) (h1 : (t : ℚ) / (K : ℚ) ≤ u) (h2 : u < ((t : ℚ) + 1) / (K : ℚ)) :
    choose K 0 techOf nbrs u aid
      = ((get_technology techOf aid, some t), techOf.set aid (some t)) := by
  have hKQ : (0 : ℚ) < (K : ℚ) := by exact_mod_cast hK
  have hsum : (tech_probability_list K 0 techOf nbrs).sum = K := by
    rw [choose_weights_alpha_zero]
    simp [List.sum_replicate]
  have hprobs : chooseProbs K 0 techOf nbrs = List.replicate K (1 / (K : ℚ)) := by
    unfold chooseProbs
    rw [choose_weights_alpha_zero]
    simp only [List.sum_replicate, smul_eq_mul, mul_one, List.map_replicate]
    simp
  have hpick : pickIndexQ (chooseProbs K 0 techOf nbrs) u = t := by
    rw [hprobs]
    apply pickIndexQ_replicate K (1 / (K : ℚ)) (by positivity) t u ht
    · rw [mul_one_div]; exact h1
    · rw [mul_one_div]; exact h2
  simp only [choose, hsum, if_pos hK, hpick]

/-- Claim C7 (corrected part refuting the original): with
`choice_function_exponent = 0` a technology with no adopting direct neighbor
is NOT excluded: here technology `1` has zero adopting neighbors
(`neighborTechCount ... 1 = 0`) yet `choose` selects it. -/
theorem claim_C7_counterexample :
    neighborTechCount [some 0, none] [0] 1 = 0 ∧
    (choose 2 0 [some 0, none] [0] (1/2) 1).1.2 = some 1 := by
  refine ⟨by decide, ?_⟩
  norm_num [choose, tech_probability_list, chooseProbs, pickIndexQ,
    neighborTechCount, get_technology]

/-- Claim C7 (amended): with `choice_function_exponent = 0` every technology
`t < n_technologies` — regardless of how many adopting neighbors it has, zero
included, because Python evaluates `0 ** 0` to `1` — is selected exactly when
the uniform variate lies in its cell `[t/K, (t+1)/K)` of length `1/K`: all
technologies are equally likely. -/
theorem claim_C7_amended (K : ℕ) (hK : 0 < K) (techOf : List (Option ℕ))
    (nbrs : List ℕ) (aid t : ℕ) (u : ℚ) (ht : t < K)
    (h1 : (t : ℚ) / (K : ℚ) ≤ u) (h2 : u < ((t : ℚ) + 1) / (K : ℚ)) :
    (choose K 0 techOf nbrs u aid).1.2 = some t := by
  rw [choose_alpha_zero_selects K hK techOf nbrs aid u t ht h1 h2]

theorem claim_C7_amended_witness :
    (0 < 2 ∧ 1 < 2 ∧ ((1 : ℕ) : ℚ) / ((2 : ℕ) : ℚ) ≤ 1/2 ∧
      (1/2 : ℚ) < (((1 : ℕ) : ℚ) + 1) / ((2 : ℕ) : ℚ)) ∧
    (choose 2 0 [some 0, none] [0] (1/2) 9).1.2 = some 1 :=
  ⟨⟨by norm_num, by norm_num, by norm_num, by norm_num⟩,
    claim_C7_amended 2 (by norm_num) [some 0, none] [0] 9 1 (1/2) (by norm_num)
      (by norm_num) (by norm_num)⟩

/-! ### The degenerate choose step -/

theorem choose_all_unadopted_sentinel (K alpha : ℕ) (halpha : 0 < alpha)
    (techOf : List (Option ℕ)) (nbrs : List ℕ) (u : ℚ) (aid : ℕ)
    (hnb : ∀ a ∈ nbrs, get_technology techOf a = none) :
    choose K alpha techOf nbrs u aid = ((none, none), techOf) := by
  have hcnt : ∀ t, neighborTechCount techOf nbrs t = 0 := by
    intro t
    apply List.countP_eq_zero.mpr
    intro a ha
    simp [hnb a ha]
  have hzero : (tech_probability_list K alpha techOf nbrs).sum = 0 := by
    apply List.sum_eq_zero
    intro x hx
    rcases List.mem_map.mp hx with ⟨t, _, rfl⟩
    rw [hcnt t]
    exact zero_pow (Nat.pos_iff_ne_zero.mp halpha)
  simp only [choose, hzero]
  norm_num

/-- Claim C2 (corrected part refuting the original): the original claim fails
at `choice_function_exponent = 0`.  Agent `0` has neighbors `[1, 2]`, all of
whom hold no technology, yet `choose` does not return the sentinel
`(None, None)`: because Python evaluates `0 ** 0` to `1` every technology gets
weight one, and the agent adopts technology `0`, mutating its state. -/
theorem claim_C2_counterexample :
    (∀ a ∈ [1, 2], get_technology [none, none, none] a = none) ∧
    choose 3 0 [none, none, none] [1, 2] 0 0
      = ((none, some 0), [some 0, none, none]) := by
  refine ⟨by decide, ?_⟩
  norm_num [choose, tech_probability_list, chooseProbs, pickIndexQ,
    neighborTechCount, get_technology]

/-- Claim C2 (amended): for every positive exponent, an agent whose neighbors
all hold no technology sees all-zero weights, so `Agent.choose` returns the
sentinel `(None, None)` and leaves the population state untouched; the
surrounding `Simulation.run` step then leaves the agent technologies and the
frequency counters unchanged. -/
theorem claim_C2_amended (cfg : Config) (nbrs : ℕ → List ℕ) (st : SimState)
    (t : ℤ) (d : Draw) (halpha : 0 < cfg.choice_function_exponent)
    (hnb : ∀ a ∈ nbrs d.agent, get_technology st.techOf a = none) :
    choose cfg.n_technologies cfg.choice_function_exponent st.techOf
        (nbrs d.agent) d.pick d.agent = ((none, none), st.techOf) ∧
    (step cfg nbrs st t d).techOf = st.techOf ∧
    (step cfg nbrs st t d).techFrequency = st.techFrequency := by
  have hch := choose_all_unadopted_sentinel cfg.n_technologies
    cfg.choice_function_exponent halpha st.techOf (nbrs d.agent) d.pick d.agent hnb
  refine ⟨hch, ?_, ?_⟩
  · simp only [step]
    split
    · rw [hch]
      rfl
    · rfl
  · simp only [step]
    split
    · rw [hch]
      rfl
    · rfl

theorem claim_C2_amended_witness :
    (0 < (2 : ℕ) ∧ ∀ a ∈ [1], get_technology [none, none] a = none) ∧
    (choose 2 2 [none, none] [1] 0 0 = ((none, none), [none, none]) ∧
      (step ⟨2, 2, 1, 0, 2, "Erdos-Renyi", 0⟩ (fun _ => [1])
        ⟨[none, none], fun _ => 0, fun _ => [], []⟩ 0 ⟨0, 0, 0⟩).techOf
        = [none, none] ∧
      (step ⟨2, 2, 1, 0, 2, "Erdos-Renyi", 0⟩ (fun _ => [1])
        ⟨[none, none], fun _ => 0, fun _ => [], []⟩ 0 ⟨0, 0, 0⟩).techFrequency
        = (fun _ => 0)) :=
  ⟨⟨by decide, by decide⟩,
    claim_C2_amended ⟨2, 2, 1, 0, 2, "Erdos-Renyi", 0⟩ (fun _ => [1])
      ⟨[none, none], fun _ => 0, fun _ => [], []⟩ 0 ⟨0, 0, 0⟩
      (by decide) (by decide)⟩

/-! ### Construction-time validation -/

/-- Claim C3 (counterexample): constructing with
`reconsideration_probability = 3/2`, which lies outside `[0,1]`, raises
nothing: every check that actually executes in `Simulation.__init__`
passes, so the claim that every parameter is validated at construction is
false. -/
theorem claim_C3_counterexample :
    (1 : ℚ) < (Config.mk 1000 3 2 (3/2) 2 "Erdos-Renyi" 5000).reconsideration_probability ∧
    initChecks (Config.mk 1000 3 2 (3/2) 2 "Erdos-Renyi" 5000) = InitOutcome.ok := by
  constructor
  · norm_num
  · rfl

/-- Claim C3 (amended): construction fails synchronously exactly on an
unrecognized `network_type` (the assert), on a recognized preferential-attachment
or small-world topology whose fixed degree parameter does not fit the
population (`nx.barabasi_albert_graph` needs `m = 40 < n` and
`nx.connected_watts_strogatz_graph` needs `k = 40 < n`, so any
`n_agents <= 40` raises `NetworkXError`), on an infeasible without-replacement
seeding draw (`n_technologies * n_initial_adopters > n_agents`, a numpy
`ValueError`), or on an empty population with at least one technology
(`ZeroDivisionError` in the `t = 0` share snapshot).  No other parameter is
checked: `n_technologies < 2`, `n_initial_adopters < 1`,
`reconsideration_probability` outside `[0,1]` and `t_max < 0` are accepted
silently whenever the conditions above pass. -/
theorem claim_C3_amended (cfg : Config) :
    initChecks cfg = InitOutcome.ok ↔
      ((cfg.network_type = "Erdos-Renyi" ∨
          ((cfg.network_type = "Barabasi-Albert" ∨
            cfg.network_type = "Watts-Strogatz") ∧ 40 < cfg.n_agents)) ∧
        cfg.n_technologies * cfg.n_initial_adopters ≤ cfg.n_agents ∧
        (cfg.n_agents = 0 → cfg.n_technologies = 0)) := by
  have hBE : ¬ (("Barabasi-Albert" : String) = "Erdos-Renyi") := by decide
  have hWE : ¬ (("Watts-Strogatz" : String) = "Erdos-Renyi") := by decide
  have hWB : ¬ (("Watts-Strogatz" : String) = "Barabasi-Albert") := by decide
  unfold initChecks seedChecks
  split_ifs <;> simp_all
  all_goals omega

/-! ### The statistics helper leaves its argument unchanged -/

/-- Claim C10: after `largest_and_second_largest_MS` returns, the caller's
list is the very list that was passed in: `np.sort` allocates a fresh sorted
copy and the assignment inside the helper rebinds only the local name, so the
call has no effect on its argument. -/
theorem claim_C10 (market_share : List ℚ) :
    (largest_and_second_largest_MS_call market_share).1 = market_share :=
  rfl

/-! ### Order statistics returned by the helper -/

theorem getD_last_eq_getLast (s : List ℚ) (h : s ≠ []) :
    s.getD (s.length - 1) 0 = s.getLast h := by
  have hlen : s.length - 1 < s.length := by
    cases s with
    | nil => exact absurd rfl h
    | cons a l => simp
  rw [List.getD_eq_getElem s 0 hlen, List.getLast_eq_getElem]

theorem sorted_le_getLast {s : List ℚ} (hs : List.Sorted (· ≤ ·) s) (h : s ≠ []) :
    ∀ x ∈ s, x ≤ s.getLast h := by
  induction s with
  | nil => exact absurd rfl h
  | cons a l ih =>
    rcases List.sorted_cons.mp hs with ⟨ha, hl⟩
    intro x hx
    cases l with
    | nil =>
      simp only [List.mem_singleton] at hx
      simp [hx, List.getLast]
    | cons b m =>
      rw [List.getLast_cons (by simp : (b :: m) ≠ [])]
      rcases List.mem_cons.mp hx with rfl | hx2
      · exact ha _ (List.getLast_mem _)
      · exact ih hl (by simp) x hx2

theorem getD_dropLast_eq (s : List ℚ) (i : ℕ) (h : i < s.dropLast.length) :
    s.dropLast.getD i 0 = s.getD i 0 := by
  rw [List.getD_eq_getElem _ 0 h, List.getElem_dropLast,
    List.getD_eq_getElem _ 0 (by have := List.length_dropLast s; omega)]

/-- Claim C4: on at least two shares, the helper returns the top two order
statistics of the sorted input: the first component is the maximum, the second
is the maximum of the rest (so between min and max), a tie for the largest
makes both components equal, and fewer than two shares is reported as an
error (the `IndexError` of `market_share[-2]`, modelled as `none`). -/
theorem claim_C4 (l : List ℚ) (h : 2 ≤ l.length) :
    ∃ r1 r2, largest_and_second_largest_MS l = some (r1, r2) ∧
      r1 ∈ l ∧ r2 ∈ l ∧ (∀ x ∈ l, x ≤ r1) ∧ r2 ≤ r1 ∧
      (∀ y : ℚ, (∀ x ∈ l, y ≤ x) → y ≤ r2) ∧
      (2 ≤ l.count r1 → r1 = r2) ∧
      (∀ x ∈ l.erase r1, x ≤ r2) ∧
      (∀ m : List ℚ, m.length < 2 → largest_and_second_largest_MS m = none) := by
  set s := l.insertionSort (· ≤ ·) with hs
  have hperm : s.Perm l := List.perm_insertionSort _ l
  have hsort : List.Sorted (· ≤ ·) s := List.sorted_insertionSort _ l
  have hlen : s.length = l.length := List.length_insertionSort _ l
  have hlen2 : 2 ≤ s.length := by omega
  have hne : s ≠ [] := List.ne_nil_of_length_pos (by omega)
  have hdlen : s.dropLast.length = s.length - 1 := List.length_dropLast s
  have hdne : s.dropLast ≠ [] := List.ne_nil_of_length_pos (by omega)
  refine ⟨s.getLast hne, s.dropLast.getLast hdne, ?_, ?_, ?_, ?_, ?_, ?_, ?_, ?_, ?_⟩
  · unfold largest_and_second_largest_MS
    rw [← hs, if_pos hlen2, getD_last_eq_getLast s hne]
    have hidx : s.length - 2 < s.dropLast.length := by omega
    rw [← getD_dropLast_eq s (s.length - 2) hidx]
    have hix : s.length - 2 = s.dropLast.length - 1 := by omega
    rw [hix, getD_last_eq_getLast s.dropLast hdne]
  · exact hperm.mem_iff.mp (List.getLast_mem hne)
  · exact hperm.mem_iff.mp ((List.dropLast_sublist s).subset (List.getLast_mem hdne))
  · intro x hx
    exact sorted_le_getLast hsort hne x (hperm.mem_iff.mpr hx)
  · exact sorted_le_getLast hsort hne _
      ((List.dropLast_sublist s).subset (List.getLast_mem hdne))
  · intro y hy
    exact hy _ (hperm.mem_iff.mp ((List.dropLast_sublist s).subset (List.getLast_mem hdne)))
  · intro hc
    have hcs : 2 ≤ s.count (s.getLast hne) := by
      rw [hperm.count_eq]; exact hc
    have hcount2 : s.count (s.getLast hne)
        = (s.dropLast ++ [s.getLast hne]).count (s.getLast hne) := by
      rw [List.dropLast_append_getLast hne]
    rw [List.count_append, List.count_singleton] at hcount2
    simp only [beq_self_eq_true, if_true] at hcount2
    have hmem : s.getLast hne ∈ s.dropLast := List.count_pos_iff.mp (by omega)
    exact le_antisymm
      (sorted_le_getLast (List.Pairwise.sublist (List.dropLast_sublist s) hsort) hdne _ hmem)
      (sorted_le_getLast hsort hne _
        ((List.dropLast_sublist s).subset (List.getLast_mem hdne)))
  · intro x hx
    by_cases hxr : x = s.getLast hne
    · have hx' : s.getLast hne ∈ l.erase (s.getLast hne) := hxr ▸ hx
      have h1 : 0 < (l.erase (s.getLast hne)).count (s.getLast hne) :=
        List.count_pos_iff.mpr hx'
      have h2 : (l.erase (s.getLast hne)).count (s.getLast hne)
          = l.count (s.getLast hne) - 1 := List.count_erase_self _ l
      have hcl : 2 ≤ l.count (s.getLast hne) := by omega
      have hcs : 2 ≤ s.count (s.getLast hne) := by
        rw [hperm.count_eq]; exact hcl
      have hcount2 : s.count (s.getLast hne)
          = (s.dropLast ++ [s.getLast hne]).count (s.getLast hne) := by
        rw [List.dropLast_append_getLast hne]
      rw [List.count_append, List.count_singleton] at hcount2
      simp only [beq_self_eq_true, if_true] at hcount2
      have hmem : s.getLast hne ∈ s.dropLast := List.count_pos_iff.mp (by omega)
      calc x = s.getLast hne := hxr
        _ ≤ s.dropLast.getLast hdne :=
          sorted_le_getLast (List.Pairwise.sublist (List.dropLast_sublist s) hsort)
            hdne _ hmem
    · have hxl : x ∈ l := List.mem_of_mem_erase hx
      have hxs : x ∈ s.dropLast ++ [s.getLast hne] := by
        rw [List.dropLast_append_getLast hne]
        exact hperm.mem_iff.mpr hxl
      rcases List.mem_append.mp hxs with hmem | hmem
      · exact sorted_le_getLast (List.Pairwise.sublist (List.dropLast_sublist s) hsort)
          hdne _ hmem
      · rw [List.mem_singleton] at hmem
        exact absurd hmem hxr
  · intro m hm
    unfold largest_and_second_largest_MS
    rw [if_neg (by rw [List.length_insertionSort]; omega)]

theorem claim_C4_witness :
    2 ≤ ([1/3, 2/3] : List ℚ).length ∧
    (∃ r1 r2, largest_and_second_largest_MS [1/3, 2/3] = some (r1, r2) ∧
      r1 ∈ ([1/3, 2/3] : List ℚ) ∧ r2 ∈ ([1/3, 2/3] : List ℚ) ∧
      (∀ x ∈ ([1/3, 2/3] : List ℚ), x ≤ r1) ∧ r2 ≤ r1 ∧
      (∀ y : ℚ, (∀ x ∈ ([1/3, 2/3] : List ℚ), y ≤ x) → y ≤ r2) ∧
      (2 ≤ ([1/3, 2/3] : List ℚ).count r1 → r1 = r2) ∧
      (∀ x ∈ ([1/3, 2/3] : List ℚ).erase r1, x ≤ r2) ∧
      (∀ m : List ℚ, m.length < 2 → largest_and_second_largest_MS m = none)) :=
  ⟨by norm_num, claim_C4 [1/3, 2/3] (by norm_num)⟩

/-! ### Shape of the recorded history -/

theorem step_historyT (cfg : Config) (nbrs : ℕ → List ℕ) (st : SimState)
    (t : ℤ) (d : Draw) : (step cfg nbrs st t d).historyT = st.historyT ++ [t] := by
  simp only [step]
  split <;> rfl

theorem timesList_length (k : ℕ) : ∀ t : ℤ, (timesList t k).length = k := by
  induction k with
  | zero => intro t; rfl
  | succ k ih => intro t; simp [timesList, ih]

theorem runSteps_historyT (cfg : Config) (nbrs : ℕ → List ℕ) :
    ∀ (ds : List Draw) (t : ℤ) (st : SimState),
      (runSteps cfg nbrs ds t st).historyT = st.historyT ++ timesList t ds.length := by
  intro ds
  induction ds with
  | nil => intro t st; simp [runSteps, timesList]
  | cons d ds ih =>
    intro t st
    simp only [runSteps, List.length_cons, timesList]
    rw [ih (t + 1) (step cfg nbrs st t d), step_historyT]
    simp

theorem step_historyTech_length (cfg : Config) (nbrs : ℕ → List ℕ)
    (st : SimState) (t : ℤ) (d : Draw) (i : ℕ) (hi : i < cfg.n_technologies) :
    ((step cfg nbrs st t d).historyTechFrequency i).length
      = (st.historyTechFrequency i).length + 1 := by
  simp only [step]
  split <;> simp [recordHistory, hi]

theorem runSteps_historyTech_length (cfg : Config) (nbrs : ℕ → List ℕ) :
    ∀ (ds : List Draw) (t : ℤ) (st : SimState) (i : ℕ), i < cfg.n_technologies →
      ((runSteps cfg nbrs ds t st).historyTechFrequency i).length
        = (st.historyTechFrequency i).length + ds.length := by
  intro ds
  induction ds with
  | nil => intro t st i _; rfl
  | cons d ds ih =>
    intro t st i hi
    simp only [runSteps, List.length_cons]
    rw [ih (t + 1) (step cfg nbrs st t d) i hi, step_historyTech_length cfg nbrs st t d i hi]
    omega

/-- Claim C5: for a nonnegative horizon, a full run (the loop executes
`t_max + 1` iterations) leaves the time sequence and every per-technology
share sequence with exactly `t_max + 2` entries: the construction snapshot
plus one sample per iteration. -/
theorem claim_C5 (cfg : Config) (nbrs : ℕ → List ℕ) (early : List ℕ)
    (ds : List Draw) (h0 : 0 ≤ cfg.t_max)
    (hlen : ds.length = (cfg.t_max + 1).toNat) :
    ((runSteps cfg nbrs ds 0 (initState cfg early)).historyT.length : ℤ)
      = cfg.t_max + 2 ∧
    ∀ i < cfg.n_technologies,
      (((runSteps cfg nbrs ds 0 (initState cfg early)).historyTechFrequency i).length : ℤ)
        = cfg.t_max + 2 := by
  constructor
  · rw [runSteps_historyT cfg nbrs ds 0 (initState cfg early)]
    have h1 : (initState cfg early).historyT = [0] := rfl
    rw [h1, List.length_append, timesList_length, hlen]
    simp only [List.length_singleton]
    omega
  · intro i hi
    rw [runSteps_historyTech_length cfg nbrs ds 0 (initState cfg early) i hi]
    have h1 : (initState cfg early).historyTechFrequency i
        = [((if i < cfg.n_technologies then (cfg.n_initial_adopters : ℤ) else 0 : ℤ) : ℚ)
            / (cfg.n_agents : ℚ)] := by
      simp only [initState, if_pos hi]
    rw [h1, hlen]
    simp only [List.length_singleton]
    omega

theorem claim_C5_witness :
    ((0 : ℤ) ≤ (0 : ℤ) ∧
      ([Draw.mk 0 0 0] : List Draw).length = ((0 : ℤ) + 1).toNat) ∧
    (((runSteps (Config.mk 2 2 1 0 2 "Erdos-Renyi" 0) (fun _ => [0, 1]) [Draw.mk 0 0 0]
        0 (initState (Config.mk 2 2 1 0 2 "Erdos-Renyi" 0) [0, 1])).historyT.length : ℤ)
      = (0 : ℤ) + 2 ∧
     ∀ i < (Config.mk 2 2 1 0 2 "Erdos-Renyi" 0).n_technologies,
      (((runSteps (Config.mk 2 2 1 0 2 "Erdos-Renyi" 0) (fun _ => [0, 1]) [Draw.mk 0 0 0]
          0 (initState (Config.mk 2 2 1 0 2 "Erdos-Renyi" 0) [0, 1])).historyTechFrequency
            i).length : ℤ) = (0 : ℤ) + 2) :=
  ⟨⟨by decide, by decide⟩,
    claim_C5 (Config.mk 2 2 1 0 2 "Erdos-Renyi" 0) (fun _ => [0, 1]) [0, 1]
      [Draw.mk 0 0 0] (by decide) (by decide)⟩

theorem timesList_eq_map_range (k : ℕ) :
    ∀ t : ℤ, timesList t k = (List.range k).map (fun (i : ℕ) => t + (i : ℤ)) := by
  induction k with
  | zero => intro t; rfl
  | succ k ih =>
    intro t
    rw [List.range_succ_eq_map]
    simp only [timesList, List.map_cons, List.map_map]
    congr 1
    · simp
    · rw [ih (t + 1)]
      congr 1
      funext i
      simp only [Function.comp_apply, Nat.succ_eq_add_one]
      push_cast
      ring

/-- Claim C9: after a full run with nonnegative horizon, the recorded time
sequence is exactly `0 :: [0, 1, ..., t_max]` — the construction snapshot's
`0` followed by the loop indices — so the value `0` occurs twice and the
sequence is non-decreasing but not strictly increasing. -/
theorem claim_C9 (cfg : Config) (nbrs : ℕ → List ℕ) (early : List ℕ)
    (ds : List Draw) (h0 : 0 ≤ cfg.t_max)
    (hlen : ds.length = (cfg.t_max + 1).toNat) :
    (runSteps cfg nbrs ds 0 (initState cfg early)).historyT
        = 0 :: (List.range ((cfg.t_max + 1).toNat)).map (fun (i : ℕ) => (i : ℤ)) ∧
    (runSteps cfg nbrs ds 0 (initState cfg early)).historyT.count 0 = 2 ∧
    List.Sorted (· ≤ ·) (runSteps cfg nbrs ds 0 (initState cfg early)).historyT ∧
    ¬ List.Sorted (· < ·) (runSteps cfg nbrs ds 0 (initState cfg early)).historyT := by
  have hmain : (runSteps cfg nbrs ds 0 (initState cfg early)).historyT
      = 0 :: (List.range ((cfg.t_max + 1).toNat)).map (fun (i : ℕ) => (i : ℤ)) := by
    rw [runSteps_historyT cfg nbrs ds 0 (initState cfg early)]
    have h1 : (initState cfg early).historyT = [0] := rfl
    rw [h1, hlen, timesList_eq_map_range]
    simp
  obtain ⟨m, hm⟩ : ∃ m, (cfg.t_max + 1).toNat = m + 1 := ⟨cfg.t_max.toNat, by omega⟩
  have hsplit : (List.range ((cfg.t_max + 1).toNat)).map (fun (i : ℕ) => (i : ℤ))
      = 0 :: (List.range m).map (fun (i : ℕ) => ((i + 1 : ℕ) : ℤ)) := by
    rw [hm, List.range_succ_eq_map]
    simp [List.map_map, Function.comp_def]
  refine ⟨hmain, ?_, ?_, ?_⟩
  · rw [hmain, hsplit]
    have hz : ((List.range m).map (fun (i : ℕ) => ((i + 1 : ℕ) : ℤ))).count 0 = 0 := by
      apply List.count_eq_zero.mpr
      intro hmem
      rcases List.mem_map.mp hmem with ⟨i, _, hiz⟩
      omega
    rw [List.count_cons, List.count_cons, hz]
    simp
  · rw [hmain]
    apply List.sorted_cons.mpr
    constructor
    · intro b hb
      rcases List.mem_map.mp hb with ⟨i, _, rfl⟩
      exact Int.ofNat_nonneg i
    · apply List.Pairwise.map
      · intro a b hab
        exact Int.ofNat_le.mpr (Nat.le_of_lt hab)
      · exact List.pairwise_lt_range _
  · rw [hmain, hsplit]
    intro hsorted
    rcases List.sorted_cons.mp hsorted with ⟨hrel, _⟩
    exact lt_irrefl 0 (hrel 0 (List.mem_cons_self _ _))

theorem claim_C9_witness :
    ((0 : ℤ) ≤ (1 : ℤ) ∧
      ([Draw.mk 0 0 0, Draw.mk 1 0 0] : List Draw).length = ((1 : ℤ) + 1).toNat) ∧
    ((runSteps (Config.mk 2 2 1 0 2 "Erdos-Renyi" 1) (fun _ => [0, 1])
        [Draw.mk 0 0 0, Draw.mk 1 0 0] 0
        (initState (Config.mk 2 2 1 0 2 "Erdos-Renyi" 1) [0, 1])).historyT
        = 0 :: (List.range (((1 : ℤ) + 1).toNat)).map (fun (i : ℕ) => (i : ℤ)) ∧
     (runSteps (Config.mk 2 2 1 0 2 "Erdos-Renyi" 1) (fun _ => [0, 1])
        [Draw.mk 0 0 0, Draw.mk 1 0 0] 0
        (initState (Config.mk 2 2 1 0 2 "Erdos-Renyi" 1) [0, 1])).historyT.count 0 = 2 ∧
     List.Sorted (· ≤ ·) (runSteps (Config.mk 2 2 1 0 2 "Erdos-Renyi" 1) (fun _ => [0, 1])
        [Draw.mk 0 0 0, Draw.mk 1 0 0] 0
        (initState (Config.mk 2 2 1 0 2 "Erdos-Renyi" 1) [0, 1])).historyT ∧
     ¬ List.Sorted (· < ·) (runSteps (Config.mk 2 2 1 0 2 "Erdos-Renyi" 1) (fun _ => [0, 1])
        [Draw.mk 0 0 0, Draw.mk 1 0 0] 0
        (initState (Config.mk 2 2 1 0 2 "Erdos-Renyi" 1) [0, 1])).historyT) :=
  ⟨⟨by decide, by decide⟩,
    claim_C9 (Config.mk 2 2 1 0 2 "Erdos-Renyi" 1) (fun _ => [0, 1]) [0, 1]
      [Draw.mk 0 0 0, Draw.mk 1 0 0] (by decide) (by decide)⟩

/-! ### Frozen adoption when reconsideration is impossible -/

theorem get_technology_set_ne (l : List (Option ℕ)) (a b : ℕ) (v : Option ℕ)
    (hab : a ≠ b) : get_technology (l.set b v) a = get_technology l a := by
  unfold get_technology
  rw [List.getD_eq_getElem?_getD, List.getD_eq_getElem?_getD,
    List.getElem?_set_ne (Ne.symm hab)]

theorem choose_get_other (K alpha : ℕ) (techOf : List (Option ℕ))
    (nbrs : List ℕ) (u : ℚ) (aid a : ℕ) (hne : a ≠ aid) :
    get_technology (choose K alpha techOf nbrs u aid).2 a
      = get_technology techOf a := by
  simp only [choose]
  split
  · exact get_technology_set_ne techOf a aid _ hne
  · rfl

theorem step_preserves_adopted (cfg : Config) (nbrs : ℕ → List ℕ)
    (st : SimState) (t : ℤ) (d : Draw) (a v : ℕ)
    (hp : cfg.reconsideration_probability = 0) (hr : 0 ≤ d.recon)
    (ha : get_technology st.techOf a = some v) :
    get_technology (step cfg nbrs st t d).techOf a = some v := by
  have hnotlt : ¬ d.recon < cfg.reconsideration_probability := by
    rw [hp]; exact not_lt.mpr hr
  by_cases hag : get_technology st.techOf d.agent = none
  · have hne : a ≠ d.agent := by
      intro hEq
      rw [hEq, hag] at ha
      exact Option.noConfusion ha
    simp only [step, if_pos (Or.inl hag)]
    show get_technology (choose cfg.n_technologies cfg.choice_function_exponent
      st.techOf (nbrs d.agent) d.pick d.agent).2 a = some v
    rw [choose_get_other _ _ _ _ _ _ _ hne]
    exact ha
  · have hcond : ¬ (get_technology st.techOf d.agent = none ∨
        d.recon < cfg.reconsideration_probability) := by
      intro hor
      rcases hor with h | h
      · exact hag h
      · exact hnotlt h
    simp only [step, if_neg hcond]
    exact ha

/-- Claim C6: when `reconsideration_probability = 0`, an agent that holds a
technology keeps exactly that technology through any number of further
iterations of `Simulation.run` (the reconsideration test
`np.random.random() < 0` never fires, and other agents' choices never touch
this agent's state); only agents with no technology can change state. -/
theorem claim_C6 (cfg : Config) (nbrs : ℕ → List ℕ) (ds : List Draw) (t : ℤ)
    (st : SimState) (a v : ℕ) (hp : cfg.reconsideration_probability = 0)
    (hds : ∀ d ∈ ds, 0 ≤ d.recon)
    (ha : get_technology st.techOf a = some v) :
    get_technology (runSteps cfg nbrs ds t st).techOf a = some v := by
  induction ds generalizing t st with
  | nil => exact ha
  | cons d ds ih =>
    simp only [runSteps]
    exact ih (t + 1) (step cfg nbrs st t d)
      (fun x hx => hds x (List.mem_cons_of_mem d hx))
      (step_preserves_adopted cfg nbrs st t d a v hp
        (hds d (List.mem_cons_self d ds)) ha)

theorem claim_C6_witness :
    ((Config.mk 2 2 1 0 2 "Erdos-Renyi" 0).reconsideration_probability = 0 ∧
      (∀ d ∈ ([Draw.mk 0 0 0] : List Draw), 0 ≤ d.recon) ∧
      get_technology (initState (Config.mk 2 2 1 0 2 "Erdos-Renyi" 0) [0, 1]).techOf 0
        = some 1) ∧
    get_technology (runSteps (Config.mk 2 2 1 0 2 "Erdos-Renyi" 0) (fun _ => [0, 1])
      [Draw.mk 0 0 0] 0
      (initState (Config.mk 2 2 1 0 2 "Erdos-Renyi" 0) [0, 1])).techOf 0 = some 1 :=
  ⟨⟨rfl, by decide, by decide⟩,
    claim_C6 (Config.mk 2 2 1 0 2 "Erdos-Renyi" 0) (fun _ => [0, 1]) [Draw.mk 0 0 0]
      0 (initState (Config.mk 2 2 1 0 2 "Erdos-Renyi" 0) [0, 1]) 0 1 rfl
      (by decide) (by decide)⟩

/-! ### Determinism of the run -/

theorem stepRel_deterministic (cfg : Config) (nbrs : ℕ → List ℕ)
    (st : SimState) (t : ℤ) (d : Draw) (s1 s2 : SimState)
    (h1 : StepRel cfg nbrs st t d s1) (h2 : StepRel cfg nbrs st t d s2) :
    s1 = s2 := by
  cases h1 with
  | act old1 nw1 techOf1 hact1 hc1 =>
    cases h2 with
    | act old2 nw2 techOf2 hact2 hc2 =>
      rw [hc1] at hc2
      injection hc2 with hpair hlist
      injection hpair with hold hnw
      subst hold
      subst hnw
      subst hlist
      rfl
    | skip hs => exact absurd hact1 hs
  | skip hs =>
    cases h2 with
    | act old2 nw2 techOf2 hact2 hc2 => exact absurd hact2 hs
    | skip _ => rfl

theorem runRel_deterministic (cfg : Config) (nbrs : ℕ → List ℕ) :
    ∀ (ds : List Draw) (st : SimState) (t : ℤ) (s1 s2 : SimState),
      RunRel cfg nbrs st t ds s1 → RunRel cfg nbrs st t ds s2 → s1 = s2 := by
  intro ds
  induction ds with
  | nil =>
    intro st t s1 s2 h1 h2
    cases h1
    cases h2
    rfl
  | cons d ds ih =>
    intro st t s1 s2 h1 h2
    cases h1 with
    | cons _ _ _ st1 _ _ hs1 hr1 =>
      cases h2 with
      | cons _ _ _ st2 _ _ hs2 hr2 =>
        have hst := stepRel_deterministic cfg nbrs st t d st1 st2 hs1 hs2
        subst hst
        exact ih st1 (t + 1) s1 s2 hr1 hr2

theorem stepRel_step (cfg : Config) (nbrs : ℕ → List ℕ) (st : SimState)
    (t : ℤ) (d : Draw) : StepRel cfg nbrs st t d (step cfg nbrs st t d) := by
  by_cases h : get_technology st.techOf d.agent = none ∨
      d.recon < cfg.reconsideration_probability
  · have hstep : step cfg nbrs st t d = recordHistory cfg
        { st with
          techOf := (choose cfg.n_technologies cfg.choice_function_exponent
            st.techOf (nbrs d.agent) d.pick d.agent).2,
          techFrequency := updateFreq st.techFrequency
            (choose cfg.n_technologies cfg.choice_function_exponent
              st.techOf (nbrs d.agent) d.pick d.agent).1.1
            (choose cfg.n_technologies cfg.choice_function_exponent
              st.techOf (nbrs d.agent) d.pick d.agent).1.2 } t := by
      simp only [step, if_pos h]
    rw [hstep]
    exact StepRel.act st t d _ _ _ h rfl
  · have hstep : step cfg nbrs st t d = recordHistory cfg st t := by
      simp only [step, if_neg h]
    rw [hstep]
    exact StepRel.skip st t d h

theorem runRel_runSteps (cfg : Config) (nbrs : ℕ → List ℕ) :
    ∀ (ds : List Draw) (t : ℤ) (st : SimState),
      RunRel cfg nbrs st t ds (runSteps cfg nbrs ds t st) := by
  intro ds
  induction ds with
  | nil => intro t st; exact RunRel.nil st t
  | cons d ds ih =>
    intro t st
    exact RunRel.cons st t d _ ds _ (stepRel_step cfg nbrs st t d)
      (ih (t + 1) (step cfg nbrs st t d))

/-- Claim C8: the run is a deterministic function of the configuration, the
network, the initial state and the stream of random draws: any two executions
of the run relation from the same configured start that consume the same
draw stream end in the same state, so the recorded time sequence and every
per-technology share sequence are reproduced exactly. -/
theorem claim_C8 (cfg : Config) (nbrs : ℕ → List ℕ) (st0 : SimState)
    (ds : List Draw) (s1 s2 : SimState)
    (h1 : RunRel cfg nbrs st0 0 ds s1) (h2 : RunRel cfg nbrs st0 0 ds s2) :
    s1.historyT = s2.historyT ∧
    ∀ i, s1.historyTechFrequency i = s2.historyTechFrequency i := by
  have hEq := runRel_deterministic cfg nbrs ds st0 0 s1 s2 h1 h2
  subst hEq
  exact ⟨rfl, fun _ => rfl⟩

theorem claim_C8_witness :
    (RunRel (Config.mk 2 2 1 0 2 "Erdos-Renyi" 0) (fun _ => [0, 1])
        (initState (Config.mk 2 2 1 0 2 "Erdos-Renyi" 0) [0, 1]) 0 [Draw.mk 0 0 0]
        (runSteps (Config.mk 2 2 1 0 2 "Erdos-Renyi" 0) (fun _ => [0, 1]) [Draw.mk 0 0 0]
          0 (initState (Config.mk 2 2 1 0 2 "Erdos-Renyi" 0) [0, 1]))) ∧
    ((runSteps (Config.mk 2 2 1 0 2 "Erdos-Renyi" 0) (fun _ => [0, 1]) [Draw.mk 0 0 0]
        0 (initState (Config.mk 2 2 1 0 2 "Erdos-Renyi" 0) [0, 1])).historyT
      = (runSteps (Config.mk 2 2 1 0 2 "Erdos-Renyi" 0) (fun _ => [0, 1]) [Draw.mk 0 0 0]
        0 (initState (Config.mk 2 2 1 0 2 "Erdos-Renyi" 0) [0, 1])).historyT ∧
     ∀ i, (runSteps (Config.mk 2 2 1 0 2 "Erdos-Renyi" 0) (fun _ => [0, 1]) [Draw.mk 0 0 0]
        0 (initState (Config.mk 2 2 1 0 2 "Erdos-Renyi" 0) [0, 1])).historyTechFrequency i
      = (runSteps (Config.mk 2 2 1 0 2 "Erdos-Renyi" 0) (fun _ => [0, 1]) [Draw.mk 0 0 0]
        0 (initState (Config.mk 2 2 1 0 2 "Erdos-Renyi" 0) [0, 1])).historyTechFrequency i) :=
  ⟨runRel_runSteps (Config.mk 2 2 1 0 2 "Erdos-Renyi" 0) (fun _ => [0, 1]) [Draw.mk 0 0 0]
      0 (initState (Config.mk 2 2 1 0 2 "Erdos-Renyi" 0) [0, 1]),
    claim_C8 (Config.mk 2 2 1 0 2 "Erdos-Renyi" 0) (fun _ => [0, 1])
      (initState (Config.mk 2 2 1 0 2 "Erdos-Renyi" 0) [0, 1]) [Draw.mk 0 0 0] _ _
      (runRel_runSteps (Config.mk 2 2 1 0 2 "Erdos-Renyi" 0) (fun _ => [0, 1]) [Draw.mk 0 0 0]
        0 (initState (Config.mk 2 2 1 0 2 "Erdos-Renyi" 0) [0, 1]))
      (runRel_runSteps (Config.mk 2 2 1 0 2 "Erdos-Renyi" 0) (fun _ => [0, 1]) [Draw.mk 0 0 0]
        0 (initState (Config.mk 2 2 1 0 2 "Erdos-Renyi" 0) [0, 1]))⟩

/-! ### Counting adopters -/

theorem count_set_aux (l : List (Option ℕ)) (a w t : ℕ) (ha : a < l.length) :
    (l.set a (some w)).count (some t) + (if l[a] = some t then 1 else 0)
      = l.count (some t) + (if w = t then 1 else 0) := by
  have hset : l.set a (some w) = l.take a ++ some w :: l.drop (a + 1) := by
    rw [List.set_eq_take_append_cons_drop, if_pos ha]
  have hsplit : l.count (some t) = (l.take a ++ l[a] :: l.drop (a + 1)).count (some t) := by
    congr 1
    conv_lhs => rw [← List.take_append_drop a l]
    congr 1
    exact (List.getElem_cons_drop l a ha).symm
  rw [hset, hsplit, List.count_append, List.count_append, List.count_cons, List.count_cons]
  simp only [beq_iff_eq, Option.some.injEq]
  split_ifs <;> omega

theorem sum_count_le (l : List (Option ℕ)) (K : ℕ) :
    ∑ t ∈ Finset.range K, l.count (some t) ≤ l.length := by
  induction l with
  | nil => simp
  | cons o l ih =>
    have hcons : ∀ t : ℕ, (o :: l).count (some t)
        = l.count (some t) + if o = some t then 1 else 0 := by
      intro t
      rw [List.count_cons]
      simp [beq_iff_eq]
    simp only [hcons]
    rw [Finset.sum_add_distrib]
    have h1 : (∑ t ∈ Finset.range K, if o = some t then 1 else 0) ≤ 1 := by
      cases o with
      | none => simp
      | some v =>
        simp only [Option.some.injEq]
        rw [Finset.sum_ite_eq]
        split_ifs <;> omega
    simp only [List.length_cons]
    omega

theorem sum_normalized (ws : List ℕ) (htot : 0 < ws.sum) :
    (ws.map (fun (w : ℕ) => (w : ℚ) / (ws.sum : ℚ))).sum = 1 := by
  have hne : ((ws.sum : ℕ) : ℚ) ≠ 0 := by
    exact_mod_cast Nat.pos_iff_ne_zero.mp htot
  simp only [div_eq_mul_inv]
  rw [List.sum_map_mul_right, ← Nat.cast_list_sum]
  exact mul_inv_cancel₀ hne

/-! ### Effect of the seeding loops -/

theorem seedPop_spec (i : ℕ) :
    ∀ (j : ℕ) (early : List ℕ) (techOf : List (Option ℕ)),
      j ≤ early.length → early.Nodup →
      (∀ a ∈ early, a < techOf.length ∧ get_technology techOf a = none) →
      (seedPop i j (early, techOf)).1 = early.take (early.length - j) ∧
      (seedPop i j (early, techOf)).2.length = techOf.length ∧
      (∀ t, (seedPop i j (early, techOf)).2.count (some t)
          = techOf.count (some t) + if t = i then j else 0) ∧
      (∀ a ∈ (seedPop i j (early, techOf)).1,
          get_technology (seedPop i j (early, techOf)).2 a = none) ∧
      (∀ o ∈ (seedPop i j (early, techOf)).2, o ∈ techOf ∨ o = some i) := by
  intro j
  induction j with
  | zero =>
    intro early techOf hj hnd hcond
    refine ⟨by simp [seedPop], rfl, fun t => by simp [seedPop], ?_, ?_⟩
    · intro a ha
      exact (hcond a ha).2
    · intro o ho
      exact Or.inl ho
  | succ j ih =>
    intro early techOf hj hnd hcond
    have hne : early ≠ [] := by
      intro h
      rw [h] at hj
      simp at hj
    have hpop : (early.getLast?).getD 0 = early.getLast hne := by
      rw [List.getLast?_eq_getLast early hne]
      rfl
    have hstep : seedPop i (j + 1) (early, techOf)
        = seedPop i j (early.dropLast, techOf.set (early.getLast hne) (some i)) := by
      simp only [seedPop, hpop]
    have hAmem : early.getLast hne ∈ early := List.getLast_mem hne
    have hAlen : early.getLast hne < techOf.length := (hcond _ hAmem).1
    have hAget : get_technology techOf (early.getLast hne) = none := (hcond _ hAmem).2
    have hsplitE : early.dropLast ++ [early.getLast hne] = early :=
      List.dropLast_append_getLast hne
    have hnd2 : (early.dropLast ++ [early.getLast hne]).Nodup := by
      rw [hsplitE]
      exact hnd
    have hndd : early.dropLast.Nodup := hnd2.of_append_left
    have hAnotin : early.getLast hne ∉ early.dropLast := by
      rcases List.nodup_append.mp hnd2 with ⟨_, _, hdisj⟩
      intro hmem
      exact hdisj hmem (List.mem_singleton_self _)
    have hlend : early.dropLast.length = early.length - 1 := List.length_dropLast early
    have hcond2 : ∀ a ∈ early.dropLast,
        a < (techOf.set (early.getLast hne) (some i)).length ∧
        get_technology (techOf.set (early.getLast hne) (some i)) a = none := by
      intro a ha
      have hmem : a ∈ early := (List.dropLast_sublist early).subset ha
      refine ⟨by rw [List.length_set]; exact (hcond a hmem).1, ?_⟩
      rw [get_technology_set_ne techOf a (early.getLast hne) (some i)
        (fun hEq => hAnotin (hEq ▸ ha))]
      exact (hcond a hmem).2
    have hj2 : j ≤ early.dropLast.length := by omega
    obtain ⟨ih1, ih2, ih3, ih4, ih5⟩ :=
      ih early.dropLast (techOf.set (early.getLast hne) (some i)) hj2 hndd hcond2
    refine ⟨?_, ?_, ?_, ?_, ?_⟩
    · rw [hstep, ih1, List.dropLast_eq_take, List.take_take, List.length_take]
      congr 1
      rw [min_eq_left (by omega : early.length - 1 ≤ early.length)]
      rw [min_eq_left (by omega : early.length - 1 - j ≤ early.length - 1)]
      omega
    · rw [hstep, ih2, List.length_set]
    · intro t
      rw [hstep, ih3 t]
      have hnone : techOf[early.getLast hne] = (none : Option ℕ) := by
        have h := hAget
        unfold get_technology at h
        rwa [List.getD_eq_getElem techOf none hAlen] at h
      have haux := count_set_aux techOf (early.getLast hne) i t hAlen
      rw [hnone] at haux
      simp only [reduceCtorEq, if_false] at haux
      by_cases hti : t = i
      · rw [if_pos hti, if_pos hti, if_pos (hti ▸ rfl : i = t)] at *
        omega
      · rw [if_neg hti, if_neg hti, if_neg (fun h => hti h.symm)] at *
        omega
    · intro a ha
      rw [hstep]
      rw [hstep] at ha
      exact ih4 a ha
    · intro o ho
      rw [hstep] at ho
      rcases ih5 o ho with hmem | hEq
      · rcases List.mem_or_eq_of_mem_set hmem with hmem2 | hEq2
        · exact Or.inl hmem2
        · exact Or.inr hEq2
      · exact Or.inr hEq

theorem applySeeding_spec :
    ∀ (K : ℕ) (nInit : ℕ) (early : List ℕ) (techOf : List (Option ℕ)),
      early.Nodup →
      (∀ a ∈ early, a < techOf.length ∧ get_technology techOf a = none) →
      K * nInit ≤ early.length →
      (applySeeding K nInit early techOf).1
          = early.take (early.length - K * nInit) ∧
      (applySeeding K nInit early techOf).2.length = techOf.length ∧
      (∀ t, (applySeeding K nInit early techOf).2.count (some t)
          = techOf.count (some t) + if t < K then nInit else 0) ∧
      (∀ a ∈ (applySeeding K nInit early techOf).1,
          get_technology (applySeeding K nInit early techOf).2 a = none) ∧
      (∀ o ∈ (applySeeding K nInit early techOf).2,
          o ∈ techOf ∨ ∃ i, i < K ∧ o = some i) := by
  intro K
  induction K with
  | zero =>
    intro nInit early techOf hnd hcond hle
    refine ⟨by simp [applySeeding], rfl, fun t => by simp [applySeeding], ?_, ?_⟩
    · intro a ha
      exact (hcond a ((by simp [applySeeding] at ha; exact ha) : a ∈ early)).2
    · intro o ho
      exact Or.inl ho
  | succ K ih =>
    intro nInit early techOf hnd hcond hle
    have hfold : applySeeding (K + 1) nInit early techOf
        = seedPop K nInit (applySeeding K nInit early techOf) := by
      unfold applySeeding
      rw [List.range_succ, List.foldl_append]
      rfl
    have hleK : K * nInit ≤ early.length := by
      have hsm := Nat.succ_mul K nInit
      simp only [Nat.succ_eq_add_one] at hsm
      omega
    obtain ⟨ih1, ih2, ih3, ih4, ih5⟩ := ih nInit early techOf hnd hcond hleK
    have hfstlen : (applySeeding K nInit early techOf).1.length
        = early.length - K * nInit := by
      rw [ih1, List.length_take]
      apply min_eq_left
      omega
    have hndf : (applySeeding K nInit early techOf).1.Nodup := by
      rw [ih1]
      exact List.Nodup.sublist (List.take_sublist _ _) hnd
    have hcondf : ∀ a ∈ (applySeeding K nInit early techOf).1,
        a < (applySeeding K nInit early techOf).2.length ∧
        get_technology (applySeeding K nInit early techOf).2 a = none := by
      intro a ha
      have hmem : a ∈ early := by
        rw [ih1] at ha
        exact List.mem_of_mem_take ha
      exact ⟨by rw [ih2]; exact (hcond a hmem).1, ih4 a ha⟩
    have hjle : nInit ≤ (applySeeding K nInit early techOf).1.length := by
      rw [hfstlen]
      have hsm := Nat.succ_mul K nInit
      simp only [Nat.succ_eq_add_one] at hsm
      omega
    have hpair : (applySeeding K nInit early techOf)
        = ((applySeeding K nInit early techOf).1, (applySeeding K nInit early techOf).2) := rfl
    obtain ⟨s1, s2, s3, s4, s5⟩ := seedPop_spec K nInit
      (applySeeding K nInit early techOf).1 (applySeeding K nInit early techOf).2
      hjle hndf hcondf
    rw [← hpair] at s1 s2 s3 s4 s5
    refine ⟨?_, ?_, ?_, ?_, ?_⟩
    · rw [hfold, s1, hfstlen, ih1, List.take_take]
      congr 1
      rw [min_eq_left (by omega :
        early.length - K * nInit - nInit ≤ early.length - K * nInit)]
      have hsm := Nat.succ_mul K nInit
      simp only [Nat.succ_eq_add_one] at hsm
      omega
    · rw [hfold, s2, ih2]
    · intro t
      rw [hfold, s3 t, ih3 t]
      by_cases h1 : t < K
      · rw [if_pos h1, if_pos (by omega : t < K + 1),
          if_neg (by omega : ¬ t = K)]
        omega
      · by_cases h2 : t = K
        · rw [if_neg h1, if_pos h2, if_pos (by omega : t < K + 1)]
          omega
        · rw [if_neg h1, if_neg h2, if_neg (by omega : ¬ t < K + 1)]
    · intro a ha
      rw [hfold] at ha ⊢
      exact s4 a ha
    · intro o ho
      rw [hfold] at ho
      rcases s5 o ho with hmem | hEq
      · rcases ih5 o hmem with hmem2 | ⟨i, hi, hEq2⟩
        · exact Or.inl hmem2
        · exact Or.inr ⟨i, by omega, hEq2⟩
      · exact Or.inr ⟨K, by omega, hEq⟩

/-! ### The run-time invariant -/

theorem chooseProbs_length (K alpha : ℕ) (techOf : List (Option ℕ))
    (nbrs : List ℕ) : (chooseProbs K alpha techOf nbrs).length = K := by
  unfold chooseProbs tech_probability_list
  rw [List.length_map, List.length_map, List.length_range]

theorem chooseProbs_sum (K alpha : ℕ) (techOf : List (Option ℕ))
    (nbrs : List ℕ) (htot : 0 < (tech_probability_list K alpha techOf nbrs).sum) :
    (chooseProbs K alpha techOf nbrs).sum = 1 :=
  sum_normalized _ htot

theorem chooseIdx_lt (K alpha : ℕ) (techOf : List (Option ℕ)) (nbrs : List ℕ)
    (u : ℚ) (htot : 0 < (tech_probability_list K alpha techOf nbrs).sum)
    (hu0 : 0 ≤ u) (hu1 : u < 1) :
    pickIndexQ (chooseProbs K alpha techOf nbrs) u < K := by
  have h := pickIndexQ_lt_length (chooseProbs K alpha techOf nbrs) u hu0
    (by rw [chooseProbs_sum K alpha techOf nbrs htot]; exact hu1)
  rwa [chooseProbs_length] at h

theorem choose_pos_eq (K alpha : ℕ) (techOf : List (Option ℕ)) (nbrs : List ℕ)
    (u : ℚ) (aid : ℕ)
    (htot : 0 < (tech_probability_list K alpha techOf nbrs).sum) :
    choose K alpha techOf nbrs u aid
      = ((get_technology techOf aid,
          some (pickIndexQ (chooseProbs K alpha techOf nbrs) u)),
        techOf.set aid (some (pickIndexQ (chooseProbs K alpha techOf nbrs) u))) := by
  simp only [choose, if_pos htot]

theorem choose_neg_eq (K alpha : ℕ) (techOf : List (Option ℕ)) (nbrs : List ℕ)
    (u : ℚ) (aid : ℕ)
    (htot : ¬ 0 < (tech_probability_list K alpha techOf nbrs).sum) :
    choose K alpha techOf nbrs u aid = ((none, none), techOf) := by
  simp only [choose, if_neg htot]

theorem recordHistory_invariant (cfg : Config) (st : SimState) (t : ℤ)
    (hn : 0 < cfg.n_agents) (hInv : Invariant cfg st) :
    Invariant cfg (recordHistory cfg st t) := by
  obtain ⟨hlen, hcoh, hrange, hhist⟩ := hInv
  refine ⟨hlen, hcoh, hrange, ?_⟩
  intro i q hq
  simp only [recordHistory] at hq
  by_cases hi : i < cfg.n_technologies
  · rw [if_pos hi] at hq
    rcases List.mem_append.mp hq with hmem | hmem
    · exact hhist i q hmem
    · rw [List.mem_singleton] at hmem
      subst hmem
      rw [hcoh i]
      constructor
      · push_cast
        positivity
      · rw [div_le_one (by exact_mod_cast hn)]
        have hc := List.count_le_length (some i) st.techOf
        rw [hlen] at hc
        push_cast
        exact_mod_cast hc
  · rw [if_neg hi] at hq
    exact hhist i q hq

theorem initState_invariant (cfg : Config) (early : List ℕ)
    (hn : 0 < cfg.n_agents) (hE : ValidEarly cfg early) :
    Invariant cfg (initState cfg early) := by
  obtain ⟨hnd, hlenE, hbound⟩ := hE
  have hcond : ∀ a ∈ early,
      a < (List.replicate cfg.n_agents (none : Option ℕ)).length ∧
      get_technology (List.replicate cfg.n_agents (none : Option ℕ)) a = none := by
    intro a ha
    refine ⟨by rw [List.length_replicate]; exact hbound a ha, ?_⟩
    unfold get_technology
    rw [List.getD_eq_getElem?_getD, List.getElem?_replicate]
    split <;> rfl
  obtain ⟨h1, h2, h3, h4, h5⟩ := applySeeding_spec cfg.n_technologies
    cfg.n_initial_adopters early (List.replicate cfg.n_agents none) hnd hcond
    (le_of_eq hlenE.symm)
  have hcount0 : ∀ t : ℕ,
      (List.replicate cfg.n_agents (none : Option ℕ)).count (some t) = 0 := by
    intro t
    rw [List.count_replicate]
    simp
  have hcnt : ∀ t : ℕ, (applySeeding cfg.n_technologies cfg.n_initial_adopters
      early (List.replicate cfg.n_agents none)).2.count (some t)
      = if t < cfg.n_technologies then cfg.n_initial_adopters else 0 := by
    intro t
    rw [h3 t, hcount0 t, Nat.zero_add]
  have hadopt_le : cfg.n_initial_adopters ≤ cfg.n_agents ∨
      cfg.n_technologies = 0 := by
    by_cases hK : cfg.n_technologies = 0
    · exact Or.inr hK
    · left
      have hcl := hcnt 0
      rw [if_pos (Nat.pos_of_ne_zero hK)] at hcl
      have hle := List.count_le_length ((some 0 : Option ℕ))
        (applySeeding cfg.n_technologies cfg.n_initial_adopters early
          (List.replicate cfg.n_agents none)).2
      rw [hcl, h2, List.length_replicate] at hle
      exact hle
  refine ⟨?_, ?_, ?_, ?_⟩
  · show (applySeeding cfg.n_technologies cfg.n_initial_adopters early
      (List.replicate cfg.n_agents none)).2.length = cfg.n_agents
    rw [h2, List.length_replicate]
  · intro t
    show (if t < cfg.n_technologies then (cfg.n_initial_adopters : ℤ) else 0)
      = ((applySeeding cfg.n_technologies cfg.n_initial_adopters early
          (List.replicate cfg.n_agents none)).2.count (some t) : ℤ)
    rw [hcnt t]
    split_ifs <;> simp
  · intro o ho x hox
    rcases h5 o ho with hmem | ⟨i, hi, hEq⟩
    · rw [List.eq_of_mem_replicate hmem] at hox
      exact Option.noConfusion hox
    · rw [hEq] at hox
      injection hox with hx
      omega
  · intro t q hq
    by_cases ht : t < cfg.n_technologies
    · have hform : (initState cfg early).historyTechFrequency t
          = [(((cfg.n_initial_adopters : ℤ)) : ℚ) / (cfg.n_agents : ℚ)] := by
        show (if t < cfg.n_technologies then
            [(((if t < cfg.n_technologies then (cfg.n_initial_adopters : ℤ) else 0) : ℤ) : ℚ)
              / (cfg.n_agents : ℚ)] else []) = _
        rw [if_pos ht, if_pos ht]
      rw [hform, List.mem_singleton] at hq
      subst hq
      have hle : cfg.n_initial_adopters ≤ cfg.n_agents := by
        rcases hadopt_le with h | h
        · exact h
        · omega
      constructor
      · push_cast
        positivity
      · rw [div_le_one (by exact_mod_cast hn)]
        push_cast
        exact_mod_cast hle
    · have hform : (initState cfg early).historyTechFrequency t = [] := by
        show (if t < cfg.n_technologies then
            [(((if t < cfg.n_technologies then (cfg.n_initial_adopters : ℤ) else 0) : ℤ) : ℚ)
              / (cfg.n_agents : ℚ)] else []) = []
        rw [if_neg ht]
      rw [hform] at hq
      exact absurd hq (List.not_mem_nil q)

theorem chooseUpdate_invariant (cfg : Config) (nl : List ℕ) (st : SimState)
    (aid : ℕ) (u : ℚ) (hInv : Invariant cfg st) (haid : aid < cfg.n_agents)
    (hu0 : 0 ≤ u) (hu1 : u < 1) :
    Invariant cfg
      { st with
        techOf := (choose cfg.n_technologies cfg.choice_function_exponent
          st.techOf nl u aid).2,
        techFrequency := updateFreq st.techFrequency
          (choose cfg.n_technologies cfg.choice_function_exponent
            st.techOf nl u aid).1.1
          (choose cfg.n_technologies cfg.choice_function_exponent
            st.techOf nl u aid).1.2 } := by
  obtain ⟨hlen, hcoh, hrange, hhist⟩ := hInv
  by_cases htot : 0 < (tech_probability_list cfg.n_technologies
      cfg.choice_function_exponent st.techOf nl).sum
  · have hch := choose_pos_eq cfg.n_technologies cfg.choice_function_exponent
      st.techOf nl u aid htot
    have hnwK : pickIndexQ (chooseProbs cfg.n_technologies
        cfg.choice_function_exponent st.techOf nl) u < cfg.n_technologies :=
      chooseIdx_lt cfg.n_technologies cfg.choice_function_exponent
        st.techOf nl u htot hu0 hu1
    rw [hch]
    have halen : aid < st.techOf.length := by rw [hlen]; exact haid
    have hgetrel : st.techOf[aid] = get_technology st.techOf aid := by
      unfold get_technology
      rw [List.getD_eq_getElem st.techOf none halen]
    refine ⟨?_, ?_, ?_, ?_⟩
    · show (st.techOf.set aid _).length = cfg.n_agents
      rw [List.length_set]
      exact hlen
    · intro t
      have haux := count_set_aux st.techOf aid
        (pickIndexQ (chooseProbs cfg.n_technologies
          cfg.choice_function_exponent st.techOf nl) u) t halen
      rw [hgetrel] at haux
      show updateFreq st.techFrequency (get_technology st.techOf aid)
          (some (pickIndexQ (chooseProbs cfg.n_technologies
            cfg.choice_function_exponent st.techOf nl) u)) t
        = ((st.techOf.set aid (some (pickIndexQ (chooseProbs cfg.n_technologies
            cfg.choice_function_exponent st.techOf nl) u))).count (some t) : ℤ)
      cases hold : get_technology st.techOf aid with
      | none =>
        rw [hold] at haux
        simp only [reduceCtorEq, if_false, Nat.add_zero] at haux
        simp only [updateFreq]
        by_cases h2 : t = pickIndexQ (chooseProbs cfg.n_technologies
            cfg.choice_function_exponent st.techOf nl) u
        · rw [if_pos h2, hcoh t]
          rw [if_pos h2.symm] at haux
          omega
        · have hnn : ¬ pickIndexQ (chooseProbs cfg.n_technologies
              cfg.choice_function_exponent st.techOf nl) u = t := fun h => h2 h.symm
          rw [if_neg h2, hcoh t]
          rw [if_neg hnn] at haux
          omega
      | some o =>
        rw [hold] at haux
        simp only [Option.some.injEq] at haux
        simp only [updateFreq]
        by_cases h2 : t = pickIndexQ (chooseProbs cfg.n_technologies
            cfg.choice_function_exponent st.techOf nl) u
        · by_cases h3 : t = o
          · rw [if_pos h2, if_pos h3, hcoh t]
            rw [if_pos h3.symm, if_pos h2.symm] at haux
            omega
          · have hno : ¬ o = t := fun h => h3 h.symm
            rw [if_pos h2, if_neg h3, hcoh t]
            rw [if_neg hno, if_pos h2.symm] at haux
            omega
        · have hnn : ¬ pickIndexQ (chooseProbs cfg.n_technologies
              cfg.choice_function_exponent st.techOf nl) u = t := fun h => h2 h.symm
          by_cases h3 : t = o
          · rw [if_neg h2, if_pos h3, hcoh t]
            rw [if_pos h3.symm, if_neg hnn] at haux
            omega
          · have hno : ¬ o = t := fun h => h3 h.symm
            rw [if_neg h2, if_neg h3, hcoh t]
            rw [if_neg hno, if_neg hnn] at haux
            omega
    · intro o ho x hox
      rcases List.mem_or_eq_of_mem_set ho with hmem | hEq
      · exact hrange o hmem x hox
      · rw [hEq] at hox
        injection hox with hx
        omega
    · intro t q hq
      exact hhist t q hq
  · have hch := choose_neg_eq cfg.n_technologies cfg.choice_function_exponent
      st.techOf nl u aid htot
    rw [hch]
    exact ⟨hlen, hcoh, hrange, hhist⟩

theorem step_invariant (cfg : Config) (nbrs : ℕ → List ℕ) (st : SimState)
    (t : ℤ) (d : Draw) (hn : 0 < cfg.n_agents) (hInv : Invariant cfg st)
    (hd : ValidDraw cfg d) : Invariant cfg (step cfg nbrs st t d) := by
  obtain ⟨hag, hr0, hr1, hp0, hp1⟩ := hd
  by_cases hcond : get_technology st.techOf d.agent = none ∨
      d.recon < cfg.reconsideration_probability
  · have hstep : step cfg nbrs st t d = recordHistory cfg
        { st with
          techOf := (choose cfg.n_technologies cfg.choice_function_exponent
            st.techOf (nbrs d.agent) d.pick d.agent).2,
          techFrequency := updateFreq st.techFrequency
            (choose cfg.n_technologies cfg.choice_function_exponent
              st.techOf (nbrs d.agent) d.pick d.agent).1.1
            (choose cfg.n_technologies cfg.choice_function_exponent
              st.techOf (nbrs d.agent) d.pick d.agent).1.2 } t := by
      simp only [step, if_pos hcond]
    rw [hstep]
    exact recordHistory_invariant cfg _ t hn
      (chooseUpdate_invariant cfg (nbrs d.agent) st d.agent d.pick hInv hag hp0 hp1)
  · have hstep : step cfg nbrs st t d = recordHistory cfg st t := by
      simp only [step, if_neg hcond]
    rw [hstep]
    exact recordHistory_invariant cfg st t hn hInv

theorem runSteps_invariant (cfg : Config) (nbrs : ℕ → List ℕ)
    (hn : 0 < cfg.n_agents) :
    ∀ (ds : List Draw) (t : ℤ) (st : SimState), Invariant cfg st →
      (∀ d ∈ ds, ValidDraw cfg d) → Invariant cfg (runSteps cfg nbrs ds t st) := by
  intro ds
  induction ds with
  | nil => intro t st hInv _; exact hInv
  | cons d ds ih =>
    intro t st hInv hds
    exact ih (t + 1) (step cfg nbrs st t d)
      (step_invariant cfg nbrs st t d hn hInv (hds d (List.mem_cons_self d ds)))
      (fun x hx => hds x (List.mem_cons_of_mem d hx))

/-- Claim C1: along every prefix of a run from a validly seeded construction,
the frequency counters summed over all technologies never exceed `n_agents`
(each counter in fact equals the number of current adopters of that
technology), and every share ever recorded in the history lies in `[0,1]`. -/
theorem claim_C1 (cfg : Config) (nbrs : ℕ → List ℕ) (early : List ℕ)
    (ds : List Draw) (k : ℕ) (hn : 0 < cfg.n_agents)
    (hE : ValidEarly cfg early) (hds : ∀ d ∈ ds, ValidDraw cfg d) :
    (∑ t ∈ Finset.range cfg.n_technologies,
        (runSteps cfg nbrs (ds.take k) 0 (initState cfg early)).techFrequency t)
      ≤ (cfg.n_agents : ℤ) ∧
    ∀ i < cfg.n_technologies,
      ∀ q ∈ (runSteps cfg nbrs (ds.take k) 0
          (initState cfg early)).historyTechFrequency i,
        0 ≤ q ∧ q ≤ 1 := by
  obtain ⟨hlen, hcoh, hrange, hhist⟩ := runSteps_invariant cfg nbrs hn (ds.take k) 0
    (initState cfg early) (initState_invariant cfg early hn hE)
    (fun d hd => hds d (List.mem_of_mem_take hd))
  constructor
  · calc ∑ t ∈ Finset.range cfg.n_technologies,
          (runSteps cfg nbrs (ds.take k) 0 (initState cfg early)).techFrequency t
        = ∑ t ∈ Finset.range cfg.n_technologies,
          (((runSteps cfg nbrs (ds.take k) 0
              (initState cfg early)).techOf.count (some t) : ℕ) : ℤ) :=
          Finset.sum_congr rfl (fun t _ => hcoh t)
      _ = ((∑ t ∈ Finset.range cfg.n_technologies,
          (runSteps cfg nbrs (ds.take k) 0
            (initState cfg early)).techOf.count (some t) : ℕ) : ℤ) := by
          push_cast
          rfl
      _ ≤ ((runSteps cfg nbrs (ds.take k) 0
            (initState cfg early)).techOf.length : ℤ) := by
          exact_mod_cast sum_count_le _ cfg.n_technologies
      _ = (cfg.n_agents : ℤ) := by rw [hlen]
  · intro i _ q hq
    exact hhist i q hq

theorem claim_C1_witness :
    (0 < (Config.mk 2 2 1 0 2 "Erdos-Renyi" 0).n_agents ∧
      ValidEarly (Config.mk 2 2 1 0 2 "Erdos-Renyi" 0) [0, 1] ∧
      (∀ d ∈ ([Draw.mk 0 0 0] : List Draw),
        ValidDraw (Config.mk 2 2 1 0 2 "Erdos-Renyi" 0) d)) ∧
    ((∑ t ∈ Finset.range (Config.mk 2 2 1 0 2 "Erdos-Renyi" 0).n_technologies,
        (runSteps (Config.mk 2 2 1 0 2 "Erdos-Renyi" 0) (fun _ => [0, 1])
          (([Draw.mk 0 0 0] : List Draw).take 1) 0
          (initState (Config.mk 2 2 1 0 2 "Erdos-Renyi" 0) [0, 1])).techFrequency t)
      ≤ ((Config.mk 2 2 1 0 2 "Erdos-Renyi" 0).n_agents : ℤ) ∧
     ∀ i < (Config.mk 2 2 1 0 2 "Erdos-Renyi" 0).n_technologies,
      ∀ q ∈ (runSteps (Config.mk 2 2 1 0 2 "Erdos-Renyi" 0) (fun _ => [0, 1])
          (([Draw.mk 0 0 0] : List Draw).take 1) 0
          (initState (Config.mk 2 2 1 0 2 "Erdos-Renyi" 0) [0, 1])).historyTechFrequency i,
        0 ≤ q ∧ q ≤ 1) :=
  ⟨⟨by decide, by simp only [ValidEarly]; decide, by simp only [ValidDraw]; decide⟩,
    claim_C1 (Config.mk 2 2 1 0 2 "Erdos-Renyi" 0) (fun _ => [0, 1]) [0, 1]
      [Draw.mk 0 0 0] 1 (by decide) (by simp only [ValidEarly]; decide)
      (by simp only [ValidDraw]; decide)⟩

end TechChoice
